import Mathlib

/-!
Verification of the OP2 OpenMP backend (`pyop2/openmp.py`).

This file gives a shallow embedding of the backend's data model and
operations — the argument descriptors and their reduction-buffer code
generators (`padding`, `c_reduction_dec`, `c_reduction_init`,
`c_reduction_finalisation`), the generated wrapper's dispatch loops, the
execution engine `ParLoop._compute`, and the degenerate `FakePlan` — and
proves the specification's claims about them.

The C code emitted by the string templates is embedded by its semantics:
a `for (i = 0; i < n; i++)` loop over an array becomes a map or fold over
a `List`, machine integers become `Int`/`Nat`, and a C array read that may
fall outside the array's extent is modelled with `Option`-valued indexing
(`l[i]?`).
-/

namespace PyOP2

/-- Access modes of an argument descriptor (`op2.READ`, ..., `op2.MAX`). -/
inductive Access where
  | READ
  | WRITE
  | RW
  | INC
  | MIN
  | MAX
  deriving DecidableEq, Repr

export Access (READ WRITE RW INC MIN MAX)

/-- Hard coded value to max openmp threads (`_max_threads = 32`). -/
def _max_threads : Nat := 32

/-- Cache line padding unit (`_padding = 8`). -/
def _padding : Nat := 8

/-- One kernel operand, as the reduction-buffer code of `class Arg` sees it:
its access mode, the element cardinality `self.data.cdim`, the dtype element
size `self.data.dtype.itemsize`, and whether it is a matrix argument
(`self._is_mat`). -/
structure Arg where
  access : Access
  cdim : Nat
  itemsize : Nat
  is_mat : Bool := false
  deriving DecidableEq, Repr

/-- Embeds `Arg.padding`:
`int(_padding * (self.data.cdim / _padding + 1)) * (_padding / self.data.dtype.itemsize)`.
The file is Python 2, so both `/` are integer (floor) divisions, which is
exactly `Nat` division. -/
def Arg.padding (a : Arg) : Nat :=
  _padding * (a.cdim / _padding + 1) * (_padding / a.itemsize)

/-- First dimension of the per-thread reduction buffer declared by
`Arg.c_reduction_dec`: `type name_l[_max_threads][padding]`. -/
def c_reduction_dec_nrows : Nat := _max_threads

/-- Embeds `Arg.c_reduction_init`, which generates
`for (i = 0; i < padding; i++) name_l[tid][i] = init`, where `init` is the
constant `(type)0` for `INC` and the read `name[i]` of the global value
otherwise.  The row written for one thread is embedded as a list of length
`padding`; each entry records the value stored, with the read of the global
value modelled by `Option`-valued indexing so an out-of-bounds read is
`none`. -/
def c_reduction_init (a : Arg) (gbl : List Int) : List (Option Int) :=
  (List.range a.padding).map (fun i => if a.access = INC then some 0 else gbl[i]?)

/-- Combination step of `Arg.c_reduction_finalisation` for one element:
`INC`: `gbl[i] += local`; `MIN`: `gbl[i] = gbl[i] < local ? gbl[i] : local`;
`MAX`: `gbl[i] = gbl[i] > local ? gbl[i] : local`.  The generator emits no
code for other access modes (they are never global reductions), so the
catch-all leaves the global unchanged. -/
def combine : Access → Int → Int → Int
  | INC, g, l => g + l
  | MIN, g, l => if g < l then g else l
  | MAX, g, l => if g > l then g else l
  | _, g, _ => g

/-- Inner loop of `Arg.c_reduction_finalisation` for one thread:
`for (i = 0; i < cdim; i++) gbl[i] = combine(gbl[i], row[i])`.
Entries of `gbl` at positions `≥ cdim` are not touched by the loop. -/
def combineRow (acc : Access) (cdim : Nat) (gbl row : List Int) : List Int :=
  (List.range gbl.length).map
    (fun i => if i < cdim then combine acc (gbl.getD i 0) (row.getD i 0) else gbl.getD i 0)

/-- Embeds `Arg.c_reduction_finalisation`:
`for (thread = 0; thread < nthread; thread++) for (i = 0; i < cdim; i++) <combine>;`
folding each thread's local row into the global value, threads taken in
increasing thread-id order. -/
def c_reduction_finalisation (acc : Access) (cdim nthread : Nat)
    (gbl : List Int) (loc : List (List Int)) : List Int :=
  (List.range nthread).foldl (fun g t => combineRow acc cdim g (loc.getD t [])) gbl

/-- A contiguous sub-range of the iteration set (`part.offset`, `part.size`). -/
structure IterationPart where
  offset : Nat
  size : Nat
  deriving DecidableEq, Repr

/-- The fields of a partition plan consumed by `ParLoop._compute` and the
generated wrapper: `ncolors`, `ncolblk`, `blkmap`, `offset`, `nelems`. -/
structure Plan where
  ncolors : Nat
  ncolblk : List Nat
  blkmap : List Nat
  offset : List Nat
  nelems : List Nat
  deriving DecidableEq, Repr

/-- Embeds `FakePlan.__init__` (the degenerate plan used when no argument is
indirect):
`nblocks = ceil(size / partition_size)`; `ncolors = 1`;
`ncolblk = [nblocks]`; `blkmap = arange(nblocks)`;
`nelems[i] = min(partition_size, size - i*partition_size)`;
`offset = arange(part.offset, part.offset + part.size, partition_size)`.
`math.ceil(part.size / float(partition_size))` is modelled as exact ceiling
division (exact whenever `part.size` is below 2^53, the float mantissa
bound); `np.arange(o, o + size, p)` has exactly `ceil(size/p)` entries
`o + b*p`, which is how `offset` is written here.  For `i < nblocks` the
Python subtraction `size - i*partition_size` is positive, so `Nat`
subtraction agrees with it. -/
def FakePlan (part : IterationPart) (partition_size : Nat) : Plan :=
  let nblocks := (part.size + partition_size - 1) / partition_size
  { ncolors := 1
    ncolblk := [nblocks]
    blkmap := List.range nblocks
    offset := (List.range nblocks).map (fun b => part.offset + b * partition_size)
    nelems := (List.range nblocks).map
      (fun i => min partition_size (part.size - i * partition_size)) }

/-- One call of the generated wrapper from `ParLoop._compute`: the pair
`(boffset, nblocks)` passed as `_boffset`, `_nblocks` for one color. -/
structure Dispatch where
  boffset : Nat
  nblocks : Nat
  deriving DecidableEq, Repr

/-- The color loop of `ParLoop._compute`:
`boffset = 0; for c in range(ncolors): nblocks = ncolblk[c]; fun(boffset, nblocks, ...); boffset += nblocks`.
The recursion walks `ncolblk[0], ncolblk[1], ...` in order, accumulating
`boffset`; the resulting list is in issue order (the Python loop is
sequential: each wrapper call returns before the next is issued). -/
def dispatchColors : List Nat → Nat → List Dispatch
  | [], _ => []
  | nb :: rest, boff => ⟨boff, nb⟩ :: dispatchColors rest (boff + nb)

/-- All wrapper calls issued by `ParLoop._compute` for one plan, in issue
order: colors `c = 0 .. ncolors-1`, reading `ncolblk[c]`. -/
def computeDispatches (plan : Plan) : List Dispatch :=
  dispatchColors (plan.ncolblk.take plan.ncolors) 0

/-- Embeds `ParLoop._compute`: if `part.size > 0`, obtain a plan and issue the
color-ordered wrapper calls, each returning (and updating the argument
data) before the next is issued; if `part.size == 0` the whole body is
skipped, no plan is computed, and the state `s` (the argument data,
including all reduction targets) is returned untouched.  `run` is the
generated wrapper: the effect of one dispatch on the argument data. -/
def compute {σ : Type} (run : Dispatch → σ → σ) (part : IterationPart)
    (plan : Plan) (s : σ) : List Dispatch × σ :=
  if 0 < part.size then
    let ds := computeDispatches plan
    (ds, ds.foldl (fun st d => run d st) s)
  else ([], s)

/-- The block loop of the generated wrapper:
`for (__b = boffset; __b < boffset + nblocks; __b++) { bid = blkmap[__b]; ... }` —
the block ids executed by one dispatch are the `nblocks` entries of
`blkmap` starting at position `boffset`. -/
def blockIds (blkmap : List Nat) (d : Dispatch) : List Nat :=
  (blkmap.drop d.boffset).take d.nblocks

/-- Embeds `ParLoop._requires_matrix_coloring`: `return True`, unconditionally —
the property never consults the loop's argument list. -/
def requiresMatrixColoring (_args : List Arg) : Bool := true

/-- The generated wrapper's entry (lines 153-198 of `openmp.py`): it reads
`nthread = omp_get_max_threads()` and immediately opens the parallel
region, whose threads have ids `0 .. nthread-1`
(`tid = omp_get_thread_num()`).  The body contains no validation of
`nthread` against `_max_threads`, so there is no error path: the result is
always `ok` with the list of thread ids that enter the region. -/
def wrapperRegion (nthread : Nat) : Except String (List Nat) :=
  Except.ok (List.range nthread)

/-! ### Claims -/

/-- C10: for every parallel loop in this backend, regardless of its argument
list, `_requires_matrix_coloring` returns `True` — including when no
argument targets a shared sparse-matrix structure — so a caller consulting
it cannot distinguish loops with matrix arguments from loops without. -/
theorem C10_requires_matrix_coloring_constant (args args2 : List Arg) :
    requiresMatrixColoring args = true ∧
    requiresMatrixColoring args = requiresMatrixColoring args2 :=
  ⟨rfl, rfl⟩

/-- C8 (code evaluated at the failing input): with a runtime thread count of
`_max_threads + 1 = 33`, the generated wrapper raises no error — it enters
the parallel region — and a thread id at least `_max_threads` runs inside
the region, although the reduction buffer `name_l[_max_threads][...]` has
only `_max_threads` rows.  The claimed fatal configuration error does not
exist in the code. -/
theorem C8_no_thread_count_guard :
    wrapperRegion (_max_threads + 1) = Except.ok (List.range (_max_threads + 1)) ∧
    ∃ tid ∈ List.range (_max_threads + 1), c_reduction_dec_nrows ≤ tid :=
  ⟨rfl, ⟨32, by decide, by decide⟩⟩

/-- C7 (counterexample): the claim `pad(cardinality) ≥ cardinality` for
every dtype element size is false: for `cdim = 1` and `itemsize = 16`
(e.g. a complex128 dtype), `padding = 8 * (1/8 + 1) * (8/16) = 0 < 1`. -/
theorem C7_padding_counterexample :
    (Arg.mk INC 1 16 false).padding < (Arg.mk INC 1 16 false).cdim := by
  decide

/-- C7 (amended): whenever the dtype element size is positive and at most
the padding unit (`_padding = 8` — every itemsize the backend's cache-line
arithmetic is built for), the padded per-thread row length is at least the
cardinality: `pad` only rounds the row size up. -/
theorem C7_padding_rounds_up (a : Arg) (h1 : 0 < a.itemsize)
    (h2 : a.itemsize ≤ _padding) :
    a.cdim ≤ a.padding := by
  have h2' : a.itemsize ≤ 8 := h2
  have hdiv : 1 ≤ 8 / a.itemsize := (Nat.one_le_div_iff h1).mpr h2'
  have hd := Nat.div_add_mod a.cdim 8
  have hm : a.cdim % 8 < 8 := Nat.mod_lt _ (by norm_num)
  have h8 : a.cdim ≤ 8 * (a.cdim / 8 + 1) := by omega
  calc a.cdim ≤ 8 * (a.cdim / 8 + 1) := h8
    _ = 8 * (a.cdim / 8 + 1) * 1 := (Nat.mul_one _).symm
    _ ≤ 8 * (a.cdim / 8 + 1) * (8 / a.itemsize) := Nat.mul_le_mul_left _ hdiv

/-- Witness for C7 (amended) at `cdim = 5`, `itemsize = 8`. -/
theorem C7_padding_rounds_up_witness :
    0 < (Arg.mk INC 5 8 false).itemsize ∧
    (Arg.mk INC 5 8 false).itemsize ≤ _padding ∧
    (Arg.mk INC 5 8 false).cdim ≤ (Arg.mk INC 5 8 false).padding :=
  ⟨by decide, by decide, C7_padding_rounds_up (Arg.mk INC 5 8 false) (by decide) (by decide)⟩

/-- C6: on a part of size 0, `_compute` skips its whole body: no plan is
consulted, the wrapper (and hence the kernel) is invoked zero times, and
the argument data — every reduction target included — is returned
unchanged. -/
theorem C6_empty_part {σ : Type} (run : Dispatch → σ → σ) (part : IterationPart)
    (plan : Plan) (s : σ) (h : part.size = 0) :
    compute run part plan s = ([], s) := by
  unfold compute
  simp [h]

/-- Witness for C6 at a concrete empty part. -/
theorem C6_empty_part_witness :
    (IterationPart.mk 7 0).size = 0 ∧
    compute (fun d n => n + d.nblocks) (IterationPart.mk 7 0)
      (Plan.mk 1 [1] [0] [7] [1]) (5 : Nat) = ([], 5) :=
  ⟨rfl, C6_empty_part _ _ _ _ rfl⟩

/-- Each entry of the color loop's dispatch list: color `c` is dispatched
with `boffset` equal to the running sum of the earlier colors' block
counts and `nblocks = ncolblk[c]`. -/
theorem dispatchColors_getElem (l : List Nat) (boff c : Nat) (hc : c < l.length) :
    (dispatchColors l boff)[c]? = some ⟨boff + (l.take c).sum, l.getD c 0⟩ := by
  induction l generalizing boff c with
  | nil => exact absurd hc (by simp)
  | cons nb rest ih =>
    cases c with
    | zero => simp [dispatchColors]
    | succ c0 =>
      have hc0 : c0 < rest.length := by simpa using hc
      simp only [dispatchColors, List.getElem?_cons_succ, ih (boff + nb) c0 hc0,
        List.take_succ_cons, List.sum_cons, List.getD_cons_succ]
      congr 2
      omega

/-- The color loop issues one dispatch per color. -/
theorem dispatchColors_length (l : List Nat) (boff : Nat) :
    (dispatchColors l boff).length = l.length := by
  induction l generalizing boff with
  | nil => rfl
  | cons nb rest ih => simp [dispatchColors, ih]

/-- C1: on a nonempty part, `_compute` issues exactly one wrapper call per
color, in increasing color order `c = 0 .. ncolors-1` (the dispatch list is
in issue order and the Python loop is sequential, so the call for color `c`
returns before the call for color `c+1` is issued — the final state folds
the dispatches in exactly that order); the call for color `c` carries
`boffset = ncolblk[0] + ... + ncolblk[c-1]` and `nblocks = ncolblk[c]`, and
the wrapper's block loop for that call reads exactly the entries of
`blkmap` at positions `boffset, ..., boffset + ncolblk[c] - 1`. -/
theorem C1_color_ordered_dispatch {σ : Type} (run : Dispatch → σ → σ)
    (part : IterationPart) (plan : Plan) (s : σ) (c : Nat)
    (hpart : 0 < part.size) (hlen : plan.ncolblk.length = plan.ncolors)
    (hc : c < plan.ncolors) :
    (compute run part plan s).1.length = plan.ncolors ∧
    (compute run part plan s).1[c]? =
      some ⟨(plan.ncolblk.take c).sum, plan.ncolblk.getD c 0⟩ ∧
    (∀ j, j < plan.ncolblk.getD c 0 →
      (blockIds plan.blkmap ⟨(plan.ncolblk.take c).sum, plan.ncolblk.getD c 0⟩)[j]? =
        plan.blkmap[(plan.ncolblk.take c).sum + j]?) ∧
    (compute run part plan s).2 =
      (compute run part plan s).1.foldl (fun st d => run d st) s := by
  have htake : plan.ncolblk.take plan.ncolors = plan.ncolblk := by
    rw [← hlen]
    exact List.take_length plan.ncolblk
  have hcompute : compute run part plan s =
      (computeDispatches plan,
        (computeDispatches plan).foldl (fun st d => run d st) s) := by
    simp [compute, hpart]
  have hds : computeDispatches plan = dispatchColors plan.ncolblk 0 := by
    rw [computeDispatches, htake]
  refine ⟨?_, ?_, ?_, ?_⟩
  · rw [hcompute, hds]
    simp [dispatchColors_length, hlen]
  · rw [hcompute, hds]
    have := dispatchColors_getElem plan.ncolblk 0 c (by rw [hlen]; exact hc)
    simpa using this
  · intro j hj
    unfold blockIds
    rw [List.getElem?_take_of_lt hj, List.getElem?_drop]
  · rw [hcompute]

/-- Witness for C1 at a concrete two-color plan, applied at color 1. -/
theorem C1_color_ordered_dispatch_witness :
    0 < (IterationPart.mk 0 10).size ∧
    (Plan.mk 2 [2, 3] [0, 1, 2, 3, 4] [0, 2, 4, 6, 8] [2, 2, 2, 2, 2]).ncolblk.length =
      (Plan.mk 2 [2, 3] [0, 1, 2, 3, 4] [0, 2, 4, 6, 8] [2, 2, 2, 2, 2]).ncolors ∧
    1 < (Plan.mk 2 [2, 3] [0, 1, 2, 3, 4] [0, 2, 4, 6, 8] [2, 2, 2, 2, 2]).ncolors ∧
    ((compute (fun d n => n + d.nblocks) (IterationPart.mk 0 10)
        (Plan.mk 2 [2, 3] [0, 1, 2, 3, 4] [0, 2, 4, 6, 8] [2, 2, 2, 2, 2]) (0 : Nat)).1.length =
      (Plan.mk 2 [2, 3] [0, 1, 2, 3, 4] [0, 2, 4, 6, 8] [2, 2, 2, 2, 2]).ncolors ∧
    (compute (fun d n => n + d.nblocks) (IterationPart.mk 0 10)
        (Plan.mk 2 [2, 3] [0, 1, 2, 3, 4] [0, 2, 4, 6, 8] [2, 2, 2, 2, 2]) (0 : Nat)).1[1]? =
      some ⟨([2, 3].take 1).sum, [2, 3].getD 1 0⟩ ∧
    (∀ j, j < [2, 3].getD 1 0 →
      (blockIds [0, 1, 2, 3, 4] ⟨([2, 3].take 1).sum, [2, 3].getD 1 0⟩)[j]? =
        [0, 1, 2, 3, 4][([2, 3].take 1).sum + j]?) ∧
    (compute (fun d n => n + d.nblocks) (IterationPart.mk 0 10)
        (Plan.mk 2 [2, 3] [0, 1, 2, 3, 4] [0, 2, 4, 6, 8] [2, 2, 2, 2, 2]) (0 : Nat)).2 =
      (compute (fun d n => n + d.nblocks) (IterationPart.mk 0 10)
        (Plan.mk 2 [2, 3] [0, 1, 2, 3, 4] [0, 2, 4, 6, 8] [2, 2, 2, 2, 2]) (0 : Nat)).1.foldl
        (fun st d => (fun d n => n + d.nblocks) d st) (0 : Nat)) :=
  ⟨by decide, by decide, by decide,
    C1_color_ordered_dispatch (fun d n => n + d.nblocks) (IterationPart.mk 0 10)
      (Plan.mk 2 [2, 3] [0, 1, 2, 3, 4] [0, 2, 4, 6, 8] [2, 2, 2, 2, 2]) 0 1
      (by decide) (by decide) (by decide)⟩


/-! ### Helper lemmas on list indexing and folds -/

theorem getElem?_map_range {α : Type} (f : Nat → α) (n i : Nat) (h : i < n) :
    ((List.range n).map f)[i]? = some (f i) := by
  simp [List.getElem?_map, List.getElem?_range h]

theorem map_range_getD {α : Type} (l : List α) (d : α) :
    (List.range l.length).map (fun i => l.getD i d) = l := by
  apply List.ext_getElem?
  intro i
  by_cases h : i < l.length
  · rw [getElem?_map_range _ _ _ h, List.getD_eq_getElem?_getD,
      List.getElem?_eq_getElem h]
    rfl
  · rw [List.getElem?_eq_none (by simpa using Nat.le_of_not_lt h),
      List.getElem?_eq_none (Nat.le_of_not_lt h)]

theorem combineRow_getElem (acc : Access) (cdim : Nat) (g r : List Int) (i : Nat) :
    (combineRow acc cdim g r)[i]? =
      (g[i]?).map (fun x => if i < cdim then combine acc x (r.getD i 0) else x) := by
  by_cases h : i < g.length
  · rw [combineRow, getElem?_map_range _ _ _ h, List.getElem?_eq_getElem h]
    simp [List.getD_eq_getElem?_getD, List.getElem?_eq_getElem h]
  · rw [combineRow, List.getElem?_eq_none (by simpa using Nat.le_of_not_lt h),
      List.getElem?_eq_none (Nat.le_of_not_lt h)]
    rfl

theorem finFold_getElem_lt (acc : Access) (cdim : Nat) (rows : List (List Int))
    (gbl : List Int) (i : Nat) (hi : i < cdim) :
    (rows.foldl (combineRow acc cdim) gbl)[i]? =
      (gbl[i]?).map
        (fun g0 => rows.foldl (fun x r => combine acc x (r.getD i 0)) g0) := by
  induction rows generalizing gbl with
  | nil => simp
  | cons r rs ih =>
    rw [List.foldl_cons, ih, combineRow_getElem]
    cases gbl[i]? <;> simp [hi]

theorem finFold_getElem_ge (acc : Access) (cdim : Nat) (rows : List (List Int))
    (gbl : List Int) (i : Nat) (hi : cdim ≤ i) :
    (rows.foldl (combineRow acc cdim) gbl)[i]? = gbl[i]? := by
  induction rows generalizing gbl with
  | nil => rfl
  | cons r rs ih =>
    rw [List.foldl_cons, ih, combineRow_getElem]
    cases gbl[i]? <;> simp [show ¬ i < cdim by omega]

theorem c_reduction_finalisation_eq_fold (acc : Access) (cdim nthread : Nat)
    (gbl : List Int) (loc : List (List Int)) :
    c_reduction_finalisation acc cdim nthread gbl loc =
      ((List.range nthread).map (fun t => loc.getD t [])).foldl
        (combineRow acc cdim) gbl := by
  rw [c_reduction_finalisation, List.foldl_map]

theorem foldl_add_sum (g0 : Int) (l : List Int) : l.foldl (· + ·) g0 = g0 + l.sum := by
  induction l generalizing g0 with
  | nil => simp
  | cons x xs ih => simp [ih, add_assoc]

theorem foldl_op_swap (f : Int → Int → Int)
    (hassoc : ∀ a b c, f (f a b) c = f a (f b c))
    (l : List Int) (a b : Int) :
    f a (l.foldl f b) = l.foldl f (f a b) := by
  induction l generalizing b with
  | nil => rfl
  | cons x xs ih =>
    simp only [List.foldl_cons]
    rw [ih, hassoc]

/-- Folding per-part folds (each started from `g0`) equals folding the
concatenation once, for a commutative, associative, idempotent operation:
the algebraic heart of the MIN/MAX reduction being partition-independent. -/
theorem foldl_parts (f : Int → Int → Int)
    (hcomm : ∀ a b, f a b = f b a)
    (hassoc : ∀ a b c, f (f a b) c = f a (f b c))
    (hidem : ∀ a, f a a = a)
    (g0 : Int) (parts : List (List Int)) :
    (parts.map (fun p => p.foldl f g0)).foldl f g0 = parts.flatten.foldl f g0 := by
  suffices h : ∀ (ps : List (List Int)) (a : Int), f g0 a = a →
      (ps.map (fun p => p.foldl f g0)).foldl f a = ps.flatten.foldl f a from
    h parts g0 (hidem g0)
  intro ps
  induction ps with
  | nil => intro a _; rfl
  | cons p rest ih =>
    intro a ha
    simp only [List.map_cons, List.foldl_cons, List.flatten_cons, List.foldl_append]
    have h3 : f a (p.foldl f g0) = p.foldl f a := by
      rw [foldl_op_swap f hassoc, hcomm a g0, ha]
    rw [h3]
    apply ih
    rw [foldl_op_swap f hassoc, ha]


theorem combine_MIN_eq (a b : Int) : combine MIN a b = min a b := by
  simp only [combine, min_def]
  split_ifs <;> omega

theorem combine_MAX_eq (a b : Int) : combine MAX a b = max a b := by
  simp only [combine, max_def]
  split_ifs <;> omega

/-- Sequential reference implementation of the INC reduction, following the
spec's words: fold every per-iteration increment contribution into the
initial global value, left to right. -/
def seqIncReference (g0 : Int) (contribs : List Int) : Int :=
  contribs.foldl (· + ·) g0

/-- Sequential reference implementation of the MIN/MAX reduction, following
the spec's words: fold every contribution into the initial global value
with the access mode's combination, left to right. -/
def seqFoldReference (acc : Access) (g0 : Int) (contribs : List Int) : Int :=
  contribs.foldl (combine acc) g0

/-- C4: per-thread reduction-buffer initialization writes, at every index
`i < padding`, the constant zero when the access mode is `INC` and the
current global value `gbl[i]` when it is `MIN` or `MAX`; consequently a
thread whose realized row carries exactly those initial values (a thread
that never contributes) leaves the finalisation fold unchanged: combining
the global value with such a row returns the global value. -/
theorem C4_reduction_init_identity (a : Arg) (gbl row : List Int)
    (hacc : a.access = INC ∨ a.access = MIN ∨ a.access = MAX)
    (hlen : gbl.length = a.cdim) (hpad : a.cdim ≤ a.padding)
    (hrow : ∀ i, i < a.cdim →
      (c_reduction_init a gbl).getD i none = some (row.getD i 0)) :
    (∀ i, i < a.padding →
      (c_reduction_init a gbl).getD i none =
        (if a.access = INC then some 0 else gbl[i]?)) ∧
    combineRow a.access a.cdim gbl row = gbl := by
  have hinit : ∀ i, i < a.padding →
      (c_reduction_init a gbl).getD i none =
        (if a.access = INC then some 0 else gbl[i]?) := by
    intro i hi
    rw [c_reduction_init, List.getD_eq_getElem?_getD, getElem?_map_range _ _ _ hi]
    rfl
  refine ⟨hinit, ?_⟩
  have hval : ∀ i, i < a.cdim → combine a.access (gbl.getD i 0) (row.getD i 0) = gbl.getD i 0 := by
    intro i hi
    have h1 := hrow i hi
    rw [hinit i (Nat.lt_of_lt_of_le hi hpad)] at h1
    have higbl : i < gbl.length := by omega
    rcases hacc with h | h | h
    · rw [h] at h1 ⊢
      simp only [if_pos rfl] at h1
      have : row.getD i 0 = 0 := by
        have := h1
        simpa using this.symm
      rw [this]
      simp [combine]
    · rw [h] at h1 ⊢
      simp only [reduceCtorEq, if_false] at h1
      have : row.getD i 0 = gbl.getD i 0 := by
        rw [List.getElem?_eq_getElem higbl] at h1
        have h2 : gbl[i] = row.getD i 0 := Option.some.inj h1
        rw [← h2, List.getD_eq_getElem?_getD, List.getElem?_eq_getElem higbl]
        rfl
      rw [this, combine_MIN_eq, min_self]
    · rw [h] at h1 ⊢
      simp only [reduceCtorEq, if_false] at h1
      have : row.getD i 0 = gbl.getD i 0 := by
        rw [List.getElem?_eq_getElem higbl] at h1
        have h2 : gbl[i] = row.getD i 0 := Option.some.inj h1
        rw [← h2, List.getD_eq_getElem?_getD, List.getElem?_eq_getElem higbl]
        rfl
      rw [this, combine_MAX_eq, max_self]
  rw [combineRow]
  have hmap : ∀ i ∈ List.range gbl.length,
      (if i < a.cdim then combine a.access (gbl.getD i 0) (row.getD i 0) else gbl.getD i 0) =
        gbl.getD i 0 := by
    intro i hi
    by_cases h : i < a.cdim
    · rw [if_pos h, hval i h]
    · rw [if_neg h]
  rw [List.map_congr_left hmap]
  exact map_range_getD gbl 0

/-- Witness for C4 at a MIN argument with `cdim = 2`, `itemsize = 8`. -/
theorem C4_reduction_init_identity_witness :
    ((Arg.mk MIN 2 8 false).access = INC ∨ (Arg.mk MIN 2 8 false).access = MIN ∨
      (Arg.mk MIN 2 8 false).access = MAX) ∧
    ([(3 : Int), 4].length = (Arg.mk MIN 2 8 false).cdim) ∧
    ((Arg.mk MIN 2 8 false).cdim ≤ (Arg.mk MIN 2 8 false).padding) ∧
    (∀ i, i < (Arg.mk MIN 2 8 false).cdim →
      (c_reduction_init (Arg.mk MIN 2 8 false) [(3 : Int), 4]).getD i none =
        some (([(3 : Int), 4]).getD i 0)) ∧
    ((∀ i, i < (Arg.mk MIN 2 8 false).padding →
      (c_reduction_init (Arg.mk MIN 2 8 false) [(3 : Int), 4]).getD i none =
        (if (Arg.mk MIN 2 8 false).access = INC then some 0 else ([(3 : Int), 4])[i]?)) ∧
    combineRow (Arg.mk MIN 2 8 false).access (Arg.mk MIN 2 8 false).cdim
      [(3 : Int), 4] [(3 : Int), 4] = [(3 : Int), 4]) :=
  ⟨by decide, by decide, by decide, by decide,
    C4_reduction_init_identity (Arg.mk MIN 2 8 false) [(3 : Int), 4] [(3 : Int), 4]
      (by decide) (by decide) (by decide) (by decide)⟩


theorem map_range_getD_comp {α β : Type} (l : List α) (d : α) (f : α → β) :
    (List.range l.length).map (fun i => f (l.getD i d)) = l.map f := by
  conv_rhs => rw [← map_range_getD l d, List.map_map]
  rfl

/-- The finalisation loop at one in-range index: the global value at `i`
becomes the fold of the combination over the thread rows, in increasing
thread-id order. -/
theorem finalisation_getElem_lt (acc : Access) (cdim nthread : Nat)
    (gbl : List Int) (loc : List (List Int)) (i : Nat)
    (hi : i < cdim) (hg : i < gbl.length) :
    (c_reduction_finalisation acc cdim nthread gbl loc)[i]? =
      some (((List.range nthread).map (fun t => (loc.getD t []).getD i 0)).foldl
        (combine acc) (gbl.getD i 0)) := by
  rw [c_reduction_finalisation_eq_fold, finFold_getElem_lt _ _ _ _ _ hi,
    List.getElem?_eq_getElem hg]
  simp only [Option.map_some']
  congr 1
  rw [List.foldl_map, List.foldl_map, List.getD_eq_getElem?_getD,
    List.getElem?_eq_getElem hg]
  rfl

/-- C2: for an INC global reduction, finalisation yields, at every index
`i < cdim`, the initial global value plus the thread-local row values
summed in increasing thread-id order; and when each thread row holds the
(integer) sum of that thread's per-iteration increment contributions, the
result equals the sequential reference: the initial value plus the sum of
all contributions. -/
theorem C2_inc_finalisation (cdim nthread : Nat) (gbl : List Int)
    (loc perThread : List (List Int)) (i : Nat)
    (hi : i < cdim) (hg : i < gbl.length)
    (hth : perThread.length = nthread)
    (hrow : ∀ t, t < nthread → (loc.getD t []).getD i 0 = (perThread.getD t []).sum) :
    (c_reduction_finalisation INC cdim nthread gbl loc)[i]? =
      some (((List.range nthread).map (fun t => (loc.getD t []).getD i 0)).foldl
        (combine INC) (gbl.getD i 0)) ∧
    (c_reduction_finalisation INC cdim nthread gbl loc)[i]? =
      some (seqIncReference (gbl.getD i 0) perThread.flatten) := by
  have h1 := finalisation_getElem_lt INC cdim nthread gbl loc i hi hg
  refine ⟨h1, ?_⟩
  rw [h1]
  congr 1
  have hvals : (List.range nthread).map (fun t => (loc.getD t []).getD i 0) =
      perThread.map List.sum := by
    rw [← hth]
    have hcg : ∀ t ∈ List.range perThread.length,
        (loc.getD t []).getD i 0 = List.sum (perThread.getD t []) := by
      intro t ht
      exact hrow t (by rw [← hth]; simpa using ht)
    rw [List.map_congr_left hcg]
    exact map_range_getD_comp perThread [] List.sum
  rw [hvals]
  have hcomb : (perThread.map List.sum).foldl (combine INC) (gbl.getD i 0) =
      (perThread.map List.sum).foldl (· + ·) (gbl.getD i 0) := rfl
  rw [hcomb, foldl_add_sum]
  simp only [seqIncReference]
  rw [foldl_add_sum]
  congr 1
  exact (List.sum_flatten).symm

/-- Witness for C2 with two threads: initial global 10, thread rows 3 and 4
(the sums of the contribution lists [1, 2] and [4]); the finalized value is
10 + 3 + 4 = 17 = seqIncReference 10 [1, 2, 4]. -/
theorem C2_inc_finalisation_witness :
    0 < 1 ∧ 0 < ([(10 : Int)]).length ∧
    [[(1 : Int), 2], [4]].length = 2 ∧
    (∀ t, t < 2 → (([[(3 : Int)], [4]]).getD t []).getD 0 0 =
      (([[(1 : Int), 2], [4]]).getD t []).sum) ∧
    ((c_reduction_finalisation INC 1 2 [(10 : Int)] [[3], [4]])[0]? =
      some (((List.range 2).map
        (fun t => (([[(3 : Int)], [4]]).getD t []).getD 0 0)).foldl
        (combine INC) (([(10 : Int)]).getD 0 0)) ∧
    (c_reduction_finalisation INC 1 2 [(10 : Int)] [[3], [4]])[0]? =
      some (seqIncReference (([(10 : Int)]).getD 0 0) ([[(1 : Int), 2], [4]]).flatten)) :=
  ⟨by decide, by decide, by decide, by decide,
    C2_inc_finalisation 1 2 [(10 : Int)] [[3], [4]] [[1, 2], [4]] 0
      (by decide) (by decide) (by decide) (by decide)⟩

/-- C3: for a MIN (resp. MAX) global reduction, finalisation yields, at
every index `i < cdim`, the fold of min (resp. max) of the initial global
value with every thread row value, folded in increasing thread-id order;
and whenever each thread row holds the fold of its own contributions
(started, as the initialization does, from the initial global value), the
result equals the sequential reference fold of all contributions — for
every thread count and every partition of the contributions into threads. -/
theorem C3_minmax_partition_independent (acc : Access) (cdim nthread : Nat)
    (gbl : List Int) (loc perThread : List (List Int)) (i : Nat)
    (hacc : acc = MIN ∨ acc = MAX)
    (hi : i < cdim) (hg : i < gbl.length)
    (hth : perThread.length = nthread)
    (hrow : ∀ t, t < nthread → (loc.getD t []).getD i 0 =
      (perThread.getD t []).foldl (combine acc) (gbl.getD i 0)) :
    (c_reduction_finalisation acc cdim nthread gbl loc)[i]? =
      some (((List.range nthread).map (fun t => (loc.getD t []).getD i 0)).foldl
        (combine acc) (gbl.getD i 0)) ∧
    (c_reduction_finalisation acc cdim nthread gbl loc)[i]? =
      some (seqFoldReference acc (gbl.getD i 0) perThread.flatten) := by
  have h1 := finalisation_getElem_lt acc cdim nthread gbl loc i hi hg
  refine ⟨h1, ?_⟩
  rw [h1]
  congr 1
  have hvals : (List.range nthread).map (fun t => (loc.getD t []).getD i 0) =
      perThread.map (fun p => p.foldl (combine acc) (gbl.getD i 0)) := by
    rw [← hth]
    have hcg : ∀ t ∈ List.range perThread.length,
        (loc.getD t []).getD i 0 =
          (perThread.getD t []).foldl (combine acc) (gbl.getD i 0) := by
      intro t ht
      exact hrow t (by rw [← hth]; simpa using ht)
    rw [List.map_congr_left hcg]
    exact map_range_getD_comp perThread []
      (fun p => p.foldl (combine acc) (gbl.getD i 0))
  rw [hvals]
  simp only [seqFoldReference]
  have hcm : ∀ a b, combine acc a b = combine acc b a := by
    rcases hacc with h | h <;> subst h
    · intro a b; rw [combine_MIN_eq, combine_MIN_eq, min_comm]
    · intro a b; rw [combine_MAX_eq, combine_MAX_eq, max_comm]
  have has : ∀ a b c, combine acc (combine acc a b) c = combine acc a (combine acc b c) := by
    rcases hacc with h | h <;> subst h
    · intro a b c; simp only [combine_MIN_eq]; exact min_assoc a b c
    · intro a b c; simp only [combine_MAX_eq]; exact max_assoc a b c
  have hid : ∀ a, combine acc a a = a := by
    rcases hacc with h | h <;> subst h
    · intro a; rw [combine_MIN_eq, min_self]
    · intro a; rw [combine_MAX_eq, max_self]
  exact foldl_parts (combine acc) hcm has hid (gbl.getD i 0) perThread

/-- Witness for C3 with a MIN reduction over two threads: initial global
10, contributions partitioned as [3, 12] and [5]; thread rows 3 and 5, and
the finalized value is min(min(10, 3), 5) = 3 = the sequential fold of
[3, 12, 5] from 10. -/
theorem C3_minmax_partition_independent_witness :
    (MIN = MIN ∨ MIN = MAX) ∧ 0 < 1 ∧ 0 < ([(10 : Int)]).length ∧
    [[(3 : Int), 12], [5]].length = 2 ∧
    (∀ t, t < 2 → (([[(3 : Int)], [5]]).getD t []).getD 0 0 =
      (([[(3 : Int), 12], [5]]).getD t []).foldl (combine MIN) (([(10 : Int)]).getD 0 0)) ∧
    ((c_reduction_finalisation MIN 1 2 [(10 : Int)] [[3], [5]])[0]? =
      some (((List.range 2).map
        (fun t => (([[(3 : Int)], [5]]).getD t []).getD 0 0)).foldl
        (combine MIN) (([(10 : Int)]).getD 0 0)) ∧
    (c_reduction_finalisation MIN 1 2 [(10 : Int)] [[3], [5]])[0]? =
      some (seqFoldReference MIN (([(10 : Int)]).getD 0 0) ([[(3 : Int), 12], [5]]).flatten)) :=
  ⟨by decide, by decide, by decide, by decide, by decide,
    C3_minmax_partition_independent MIN 1 2 [(10 : Int)] [[3], [5]] [[3, 12], [5]] 0
      (by decide) (by decide) (by decide) (by decide) (by decide)⟩


theorem combineRow_take (acc : Access) (cdim : Nat) (g r : List Int) :
    combineRow acc cdim g (r.take cdim) = combineRow acc cdim g r := by
  unfold combineRow
  apply List.map_congr_left
  intro i _
  by_cases h : i < cdim
  · rw [if_pos h, if_pos h, List.getD_eq_getElem?_getD (r.take cdim),
      List.getElem?_take_of_lt h, ← List.getD_eq_getElem?_getD]
  · rw [if_neg h, if_neg h]

theorem getD_map_take (loc : List (List Int)) (cdim t : Nat) :
    (loc.map (List.take cdim)).getD t [] = (loc.getD t []).take cdim := by
  by_cases h : t < loc.length
  · rw [List.getD_eq_getElem?_getD, List.getElem?_map, List.getElem?_eq_getElem h,
      List.getD_eq_getElem?_getD, List.getElem?_eq_getElem h]
    rfl
  · have h1 : loc.length ≤ t := Nat.le_of_not_lt h
    rw [List.getD_eq_getElem?_getD, List.getElem?_eq_none (by simpa using h1),
      List.getD_eq_getElem?_getD, List.getElem?_eq_none h1]
    simp

/-- C9: when the padded row length strictly exceeds the cardinality, the
MIN/MAX initialization loop reads the global value at index `cdim` — at or
beyond its length, an out-of-bounds read (`none` under the Option-valued
embedding of indexing) — whereas the finalisation loop reads only row
entries at indices below `cdim` (it is unchanged when each row is
truncated to `cdim` entries) and writes only global entries below `cdim`
(indices at or beyond `cdim` keep their pre-finalisation value): padding
elements never flow into the finalized global value. -/
theorem C9_padding_never_flows (a : Arg) (nthread : Nat) (gbl : List Int)
    (loc : List (List Int))
    (hacc : a.access = MIN ∨ a.access = MAX)
    (hlen : gbl.length = a.cdim) (hpad : a.cdim < a.padding) :
    (c_reduction_init a gbl)[a.cdim]? = some none ∧
    c_reduction_finalisation a.access a.cdim nthread gbl loc =
      c_reduction_finalisation a.access a.cdim nthread gbl
        (loc.map (List.take a.cdim)) ∧
    (∀ i, a.cdim ≤ i →
      (c_reduction_finalisation a.access a.cdim nthread gbl loc)[i]? = gbl[i]?) := by
  refine ⟨?_, ?_, ?_⟩
  · rw [c_reduction_init, getElem?_map_range _ _ _ hpad]
    have hne : ¬ a.access = INC := by
      rcases hacc with h | h <;> rw [h] <;> intro hc <;> exact Access.noConfusion hc
    rw [if_neg hne, List.getElem?_eq_none (by omega)]
  · unfold c_reduction_finalisation
    have hfun : (fun (g : List Int) t =>
        combineRow a.access a.cdim g ((loc.map (List.take a.cdim)).getD t [])) =
        (fun (g : List Int) t => combineRow a.access a.cdim g (loc.getD t [])) := by
      funext g t
      rw [getD_map_take, combineRow_take]
    rw [hfun]
  · intro i hge
    rw [c_reduction_finalisation_eq_fold, finFold_getElem_ge _ _ _ _ _ hge]

/-- Witness for C9 at a MIN argument with `cdim = 1`, `itemsize = 8`
(padding 8 > 1), global value [5], one thread with a padded row. -/
theorem C9_padding_never_flows_witness :
    ((Arg.mk MIN 1 8 false).access = MIN ∨ (Arg.mk MIN 1 8 false).access = MAX) ∧
    ([(5 : Int)]).length = (Arg.mk MIN 1 8 false).cdim ∧
    (Arg.mk MIN 1 8 false).cdim < (Arg.mk MIN 1 8 false).padding ∧
    ((c_reduction_init (Arg.mk MIN 1 8 false) [(5 : Int)])[(Arg.mk MIN 1 8 false).cdim]? =
      some none ∧
    c_reduction_finalisation (Arg.mk MIN 1 8 false).access (Arg.mk MIN 1 8 false).cdim 1
      [(5 : Int)] [[7, 9]] =
      c_reduction_finalisation (Arg.mk MIN 1 8 false).access (Arg.mk MIN 1 8 false).cdim 1
        [(5 : Int)] ([[7, 9]].map (List.take (Arg.mk MIN 1 8 false).cdim)) ∧
    (∀ i, (Arg.mk MIN 1 8 false).cdim ≤ i →
      (c_reduction_finalisation (Arg.mk MIN 1 8 false).access (Arg.mk MIN 1 8 false).cdim 1
        [(5 : Int)] [[7, 9]])[i]? = ([(5 : Int)])[i]?)) :=
  ⟨by decide, by decide, by decide,
    C9_padding_never_flows (Arg.mk MIN 1 8 false) 1 [(5 : Int)] [[7, 9]]
      (by decide) (by decide) (by decide)⟩


/-- A block index is valid for the degenerate plan exactly when its first
iteration `b * p` lies inside the part. -/
theorem ceil_block_lt_iff (size p b : Nat) (hs : 0 < size) (hp : 0 < p) :
    b < (size + p - 1) / p ↔ b * p < size := by
  have h1 : size + p - 1 = (size - 1) + p := by omega
  have hnb : (size + p - 1) / p = (size - 1) / p + 1 := by
    rw [h1, Nat.add_div_right _ hp]
  rw [hnb]
  constructor
  · intro hb
    have hb1 : b ≤ (size - 1) / p := by omega
    have h2 : b * p ≤ (size - 1) / p * p := Nat.mul_le_mul_right p hb1
    have h3 : (size - 1) / p * p ≤ size - 1 := Nat.div_mul_le_self _ _
    omega
  · intro hb
    have hb1 : b * p ≤ size - 1 := by omega
    have h2 : b ≤ (size - 1) / p := (Nat.le_div_iff_mul_le hp).mpr hb1
    omega

/-- Every in-part iteration offset `y` lies in block `y / p` of the
degenerate plan. -/
theorem block_cover (size p y : Nat) (hp : 0 < p) (hy : y < size) :
    y / p < (size + p - 1) / p ∧ y / p * p ≤ y ∧
    y < y / p * p + min p (size - y / p * p) := by
  have hs : 0 < size := by omega
  have h1 : y / p * p ≤ y := Nat.div_mul_le_self y p
  have h2 : y < y / p * p + p := by
    have hdm := Nat.div_add_mod y p
    have hm : y % p < p := Nat.mod_lt _ hp
    have hc : p * (y / p) = y / p * p := Nat.mul_comm p (y / p)
    omega
  refine ⟨?_, h1, ?_⟩
  · rw [ceil_block_lt_iff size p _ hs hp]
    omega
  · rcases Nat.le_total p (size - y / p * p) with h | h
    · rw [min_eq_left h]
      omega
    · rw [min_eq_right h]
      omega

/-- An iteration offset `y` lies in at most one block of the degenerate
plan: containment pins the block index to `y / p`. -/
theorem block_unique (size p b y : Nat) (_hp : 0 < p)
    (h1 : b * p ≤ y) (h2 : y < b * p + min p (size - b * p)) :
    b = y / p := by
  have h3 : y < b * p + p := by
    have := min_le_left p (size - b * p)
    omega
  have h4 : y < Nat.succ b * p := by
    rw [Nat.succ_mul]
    omega
  exact (Nat.div_eq_of_lt_le h1 h4).symm

/-- C5: for a part of positive size and any positive partition size, the
degenerate plan is the trivial single-color plan: one color whose single
color-block-count is `ceil(size / p)`, `blkmap` enumerating the blocks in
order; block `b` starts at `part.offset + b * p` and holds `p` iterations
except the final block, truncated to the remainder; and the blocks' ranges
`[offset[b], offset[b] + nelems[b])` are pairwise disjoint with union
exactly `[part.offset, part.offset + part.size)` — each iteration covered
by exactly one block. -/
theorem C5_fake_plan_trivial (part : IterationPart) (p : Nat)
    (hs : 0 < part.size) (hp : 0 < p) :
    (FakePlan part p).ncolors = 1 ∧
    (FakePlan part p).ncolblk = [(part.size + p - 1) / p] ∧
    (FakePlan part p).blkmap = List.range ((part.size + p - 1) / p) ∧
    (∀ b, b < (part.size + p - 1) / p →
      (FakePlan part p).offset[b]? = some (part.offset + b * p) ∧
      (FakePlan part p).nelems[b]? = some (min p (part.size - b * p)) ∧
      (b + 1 < (part.size + p - 1) / p → (FakePlan part p).nelems[b]? = some p) ∧
      (b + 1 = (part.size + p - 1) / p →
        (FakePlan part p).nelems[b]? = some (part.size - b * p))) ∧
    (∀ x, (part.offset ≤ x ∧ x < part.offset + part.size) ↔
      ∃ b, b < (part.size + p - 1) / p ∧
        (FakePlan part p).offset.getD b 0 ≤ x ∧
        x < (FakePlan part p).offset.getD b 0 + (FakePlan part p).nelems.getD b 0) ∧
    (∀ b1 b2 x, b1 < (part.size + p - 1) / p → b2 < (part.size + p - 1) / p →
      (FakePlan part p).offset.getD b1 0 ≤ x →
      x < (FakePlan part p).offset.getD b1 0 + (FakePlan part p).nelems.getD b1 0 →
      (FakePlan part p).offset.getD b2 0 ≤ x →
      x < (FakePlan part p).offset.getD b2 0 + (FakePlan part p).nelems.getD b2 0 →
      b1 = b2) := by
  have hoffdef : (FakePlan part p).offset =
      (List.range ((part.size + p - 1) / p)).map (fun b => part.offset + b * p) := rfl
  have hneldef : (FakePlan part p).nelems =
      (List.range ((part.size + p - 1) / p)).map
        (fun i => min p (part.size - i * p)) := rfl
  have hoff : ∀ b, b < (part.size + p - 1) / p →
      (FakePlan part p).offset.getD b 0 = part.offset + b * p := by
    intro b hb
    rw [hoffdef, List.getD_eq_getElem?_getD, getElem?_map_range _ _ _ hb]
    rfl
  have hnel : ∀ b, b < (part.size + p - 1) / p →
      (FakePlan part p).nelems.getD b 0 = min p (part.size - b * p) := by
    intro b hb
    rw [hneldef, List.getD_eq_getElem?_getD, getElem?_map_range _ _ _ hb]
    rfl
  refine ⟨rfl, rfl, rfl, ?_, ?_, ?_⟩
  · intro b hb
    have hsucc : (b + 1) * p = b * p + p := Nat.succ_mul b p
    refine ⟨?_, ?_, ?_, ?_⟩
    · rw [hoffdef, getElem?_map_range _ _ _ hb]
    · rw [hneldef, getElem?_map_range _ _ _ hb]
    · intro hb1
      rw [hneldef, getElem?_map_range _ _ _ hb]
      have h1 : (b + 1) * p < part.size := (ceil_block_lt_iff _ _ _ hs hp).mp hb1
      have h2 : p ≤ part.size - b * p := by omega
      rw [min_eq_left h2]
    · intro hb1
      rw [hneldef, getElem?_map_range _ _ _ hb]
      have h1 : ¬ (b + 1) * p < part.size := by
        intro hc
        have := (ceil_block_lt_iff part.size p (b + 1) hs hp).mpr hc
        omega
      have h2 : part.size - b * p ≤ p := by omega
      rw [min_eq_right h2]
  · intro x
    constructor
    · rintro ⟨hxl, hxr⟩
      obtain ⟨y, rfl⟩ : ∃ y, x = part.offset + y := ⟨x - part.offset, by omega⟩
      have hy : y < part.size := by omega
      obtain ⟨hb, hle, hlt⟩ := block_cover part.size p y hp hy
      refine ⟨y / p, hb, ?_, ?_⟩
      · rw [hoff _ hb]
        omega
      · rw [hoff _ hb, hnel _ hb]
        omega
    · rintro ⟨b, hb, hle, hlt⟩
      rw [hoff _ hb] at hle
      rw [hoff _ hb, hnel _ hb] at hlt
      have h1 : b * p < part.size := (ceil_block_lt_iff _ _ _ hs hp).mp hb
      have h2 : min p (part.size - b * p) ≤ part.size - b * p := min_le_right _ _
      constructor
      · omega
      · omega
  · intro b1 b2 x hb1 hb2 hle1 hlt1 hle2 hlt2
    rw [hoff _ hb1] at hle1
    rw [hoff _ hb1, hnel _ hb1] at hlt1
    rw [hoff _ hb2] at hle2
    rw [hoff _ hb2, hnel _ hb2] at hlt2
    obtain ⟨y, rfl⟩ : ∃ y, x = part.offset + y := ⟨x - part.offset, by omega⟩
    have hu1 : b1 = y / p := by
      apply block_unique part.size p b1 y hp (by omega)
      have := min_le_left p (part.size - b1 * p)
      omega
    have hu2 : b2 = y / p := by
      apply block_unique part.size p b2 y hp (by omega)
      have := min_le_left p (part.size - b2 * p)
      omega
    rw [hu1, hu2]

/-- Witness for C5 at a part of size 10 with partition size 4 (three
blocks: 4 + 4 + 2 iterations starting at offsets 3, 7, 11). -/
theorem C5_fake_plan_trivial_witness :
    0 < (IterationPart.mk 3 10).size ∧ 0 < 4 ∧
    ((FakePlan (IterationPart.mk 3 10) 4).ncolors = 1 ∧
    (FakePlan (IterationPart.mk 3 10) 4).ncolblk = [((IterationPart.mk 3 10).size + 4 - 1) / 4] ∧
    (FakePlan (IterationPart.mk 3 10) 4).blkmap =
      List.range (((IterationPart.mk 3 10).size + 4 - 1) / 4) ∧
    (∀ b, b < ((IterationPart.mk 3 10).size + 4 - 1) / 4 →
      (FakePlan (IterationPart.mk 3 10) 4).offset[b]? =
        some ((IterationPart.mk 3 10).offset + b * 4) ∧
      (FakePlan (IterationPart.mk 3 10) 4).nelems[b]? =
        some (min 4 ((IterationPart.mk 3 10).size - b * 4)) ∧
      (b + 1 < ((IterationPart.mk 3 10).size + 4 - 1) / 4 →
        (FakePlan (IterationPart.mk 3 10) 4).nelems[b]? = some 4) ∧
      (b + 1 = ((IterationPart.mk 3 10).size + 4 - 1) / 4 →
        (FakePlan (IterationPart.mk 3 10) 4).nelems[b]? =
          some ((IterationPart.mk 3 10).size - b * 4))) ∧
    (∀ x, ((IterationPart.mk 3 10).offset ≤ x ∧
        x < (IterationPart.mk 3 10).offset + (IterationPart.mk 3 10).size) ↔
      ∃ b, b < ((IterationPart.mk 3 10).size + 4 - 1) / 4 ∧
        (FakePlan (IterationPart.mk 3 10) 4).offset.getD b 0 ≤ x ∧
        x < (FakePlan (IterationPart.mk 3 10) 4).offset.getD b 0 +
          (FakePlan (IterationPart.mk 3 10) 4).nelems.getD b 0) ∧
    (∀ b1 b2 x, b1 < ((IterationPart.mk 3 10).size + 4 - 1) / 4 →
      b2 < ((IterationPart.mk 3 10).size + 4 - 1) / 4 →
      (FakePlan (IterationPart.mk 3 10) 4).offset.getD b1 0 ≤ x →
      x < (FakePlan (IterationPart.mk 3 10) 4).offset.getD b1 0 +
        (FakePlan (IterationPart.mk 3 10) 4).nelems.getD b1 0 →
      (FakePlan (IterationPart.mk 3 10) 4).offset.getD b2 0 ≤ x →
      x < (FakePlan (IterationPart.mk 3 10) 4).offset.getD b2 0 +
        (FakePlan (IterationPart.mk 3 10) 4).nelems.getD b2 0 →
      b1 = b2)) :=
  ⟨by decide, by decide,
    C5_fake_plan_trivial (IterationPart.mk 3 10) 4 (by decide) (by decide)⟩


end PyOP2
